import Mathlib

/-!
Verification development for the link_remover repository (src/link_remover.py).

The Word transform `remove_hyperlinks_from_docx` is embedded over an ordered
XML element tree (`Elem`): each element carries a tag, an attribute list, its
own text, and an ordered child list, mirroring the lxml elements that
python-docx exposes.  The document body is embedded as a list of blocks
(paragraphs and tables), mirroring `doc.paragraphs` / `doc.tables` /
`row.cells` / `cell.paragraphs` in python-docx.  The PDF transform and the
batch pipeline (`process_file`, `main`) are embedded over explicit records.
-/

/-- Ordered XML element: tag, attributes, own text, ordered children
(the shape of an lxml element as used by `process_paragraph`). -/
inductive Elem : Type where
  | mk (tag : String) (attrs : List (String × String)) (text : String)
      (children : List Elem)
deriving Repr

def Elem.tag : Elem → String
  | .mk t _ _ _ => t

def Elem.attrs : Elem → List (String × String)
  | .mk _ a _ _ => a

def Elem.text : Elem → String
  | .mk _ _ tx _ => tx

def Elem.children : Elem → List Elem
  | .mk _ _ _ cs => cs

/-- Qualified tag of a hyperlink wrapper node: `qn('w:hyperlink')` in the source. -/
def hlTag : String := "w:hyperlink"

/-- Qualified tag of a run node: `qn('w:r')` in the source. -/
def runTag : String := "w:r"

/-- Qualified tag of the run-properties container: `qn('w:rPr')` in the source. -/
def rPrTag : String := "w:rPr"

/-- Qualified tag of the color property: `qn('w:color')` in the source. -/
def colorTag : String := "w:color"

/-- Qualified tag of a text node inside a run: `w:t` in OOXML. -/
def tTag : String := "w:t"

def isRun (e : Elem) : Bool := e.tag == runTag

def isRPr (e : Elem) : Bool := e.tag == rPrTag

def isColor (e : Elem) : Bool := e.tag == colorTag

/-- The color element the source appends:
`color_elem.set(qn('w:val'), '000000')` (lines 197-198). -/
def blackColor : Elem := .mk colorTag [("w:val", "000000")] "" []

/-- Embeds `rPr.find(color_qn)` followed by `rPr.remove(color_elem)`
(lines 191-193): lxml `find` returns the first direct child with the given
tag, so the first color child is removed, and an absent color is a no-op. -/
def removeFirstColor : List Elem → List Elem
  | [] => []
  | c :: rest => if c.tag = colorTag then rest else c :: removeFirstColor rest

/-- Rewrites a run-properties container as lines 191-199 do: remove the first
pre-existing color child, then append the fresh black color element. -/
def updateRPr (p : Elem) : Elem :=
  .mk p.tag p.attrs p.text (removeFirstColor p.children ++ [blackColor])

/-- Applies `updateRPr` to the first direct child tagged `w:rPr`, in place:
this is the `rPr = run_elem.find(rPr_qn)` path of lines 185-199 when the
container already exists. -/
def replaceFirstRPr : List Elem → List Elem
  | [] => []
  | c :: rest =>
      if c.tag = rPrTag then updateRPr c :: rest else c :: replaceFirstRPr rest

/-- Embeds the per-run body of lines 183-199: ensure a `w:rPr` container
(created and inserted at index 0 when absent, lines 185-188), remove any
first pre-existing `w:color` child, and append the black color element. -/
def forceBlack (r : Elem) : Elem :=
  if (r.children.find? isRPr).isSome then
    .mk r.tag r.attrs r.text (replaceFirstRPr r.children)
  else
    .mk r.tag r.attrs r.text (.mk rPrTag [] "" [blackColor] :: r.children)

mutual

/-- Embeds the walk of `process_paragraph` (lines 172-209) on one element:
the `paragraph._element.iter()` loop visits every descendant, and every
`w:hyperlink` found is unwrapped in its parent. -/
def processElem : Elem → Elem
  | .mk t a tx cs => .mk t a tx (processChildren cs)

/-- Embeds the effect of the walk on an ordered child list.  A hyperlink
child is replaced, at its original position, by its direct run children
(`hyperlink.findall(run_qn)`, line 180, matches direct children only), each
color-forced (lines 183-199); the splice of lines 201-209 inserts the runs
at the hyperlink position in order and then deletes the hyperlink, so every
non-run child of the hyperlink is dropped with it.  The recursion then
continues with the later siblings.  In the source, lxml's depth-first
iterator computes the successor of the yielded hyperlink before the loop
body mutates the tree, so the walk continues exactly when that successor is
still attached afterwards: for a childless hyperlink the successor is the
next sibling, and for a hyperlink whose first child is a run it is that run,
which the splice moves into the parent — in both cases the walk proceeds as
this recursion does, and spliced runs hide no hyperlinks in a schema-valid
document, so nothing further is rewritten inside them.  A hyperlink whose
first child is a non-run instead leaves the stored successor inside the
detached node, ending that paragraph walk early; the transform-wide
theorems below therefore carry hypotheses confining them to the attached
cases. -/
def processChildren : List Elem → List Elem
  | [] => []
  | c :: rest =>
      if c.tag = hlTag then
        (c.children.filter isRun).map forceBlack ++ processChildren rest
      else
        processElem c :: processChildren rest

end

mutual

/-- Document body block: a paragraph element or a table, as surfaced by
python-docx via `doc.paragraphs` and `doc.tables`. -/
inductive Block : Type where
  | para : Elem → Block
  | table : List TableRow → Block

/-- Table row, as surfaced by `table.rows`. -/
inductive TableRow : Type where
  | mk : List TableCell → TableRow

/-- Table cell: an ordered list of blocks (paragraphs and nested tables),
of which `cell.paragraphs` surfaces only the direct paragraphs. -/
inductive TableCell : Type where
  | mk : List Block → TableCell

end

def TableRow.cells : TableRow → List TableCell
  | .mk cs => cs

def TableCell.blocks : TableCell → List Block
  | .mk bs => bs

/-- Processing of one block found inside a table cell (lines 218-220):
`cell.paragraphs` yields only the direct paragraph children of the cell, so
a nested table inside the cell is left untouched. -/
def processCellBlock : Block → Block
  | .para p => .para (processElem p)
  | .table rows => .table rows

def processTableCell : TableCell → TableCell
  | .mk bs => .mk (bs.map processCellBlock)

def processTableRow : TableRow → TableRow
  | .mk cells => .mk (cells.map processTableCell)

/-- Processing of one top-level body block (lines 211-220): body paragraphs
are processed directly; for each top-level table, every row, every cell,
only the cell's direct paragraphs are processed. -/
def processTopBlock : Block → Block
  | .para p => .para (processElem p)
  | .table rows => .table (rows.map processTableRow)

/-- Embeds `remove_hyperlinks_from_docx` (lines 211-220): process all body
paragraphs, then all top-level tables row-by-row, cell-by-cell. -/
def remove_hyperlinks_from_docx (doc : List Block) : List Block :=
  doc.map processTopBlock

mutual

/-- Visible text of an element: the concatenated contents of the `w:t` text
nodes, in document order. -/
def textOfE : Elem → List Char
  | .mk t _ tx cs => (if t = tTag then tx.toList else []) ++ textOfL cs

def textOfL : List Elem → List Char
  | [] => []
  | c :: rest => textOfE c ++ textOfL rest

end

mutual

/-- Number of `w:hyperlink` nodes in an element tree. -/
def hlCountE : Elem → Nat
  | .mk t _ _ cs => (if t = hlTag then 1 else 0) + hlCountL cs

def hlCountL : List Elem → Nat
  | [] => 0
  | c :: rest => hlCountE c + hlCountL rest

end

mutual

def hlCountB : Block → Nat
  | .para p => hlCountE p
  | .table rows => hlCountRows rows

def hlCountRows : List TableRow → Nat
  | [] => 0
  | r :: rest => hlCountRow r + hlCountRows rest

def hlCountRow : TableRow → Nat
  | .mk cells => hlCountCells cells

def hlCountCells : List TableCell → Nat
  | [] => 0
  | c :: rest => hlCountCell c + hlCountCells rest

def hlCountCell : TableCell → Nat
  | .mk bs => hlCountBs bs

def hlCountBs : List Block → Nat
  | [] => 0
  | b :: rest => hlCountB b + hlCountBs rest

end

/-- Number of `w:hyperlink` nodes anywhere in a document body. -/
def hlCountDoc (doc : List Block) : Nat := hlCountBs doc

mutual

def textOfB : Block → List Char
  | .para p => textOfE p
  | .table rows => textOfRows rows

def textOfRows : List TableRow → List Char
  | [] => []
  | r :: rest => textOfRow r ++ textOfRows rest

def textOfRow : TableRow → List Char
  | .mk cells => textOfCells cells

def textOfCells : List TableCell → List Char
  | [] => []
  | c :: rest => textOfCell c ++ textOfCells rest

def textOfCell : TableCell → List Char
  | .mk bs => textOfBs bs

def textOfBs : List Block → List Char
  | [] => []
  | b :: rest => textOfB b ++ textOfBs rest

end

/-- Visible text of a document body, in order. -/
def textOfDoc (doc : List Block) : List Char := textOfBs doc

mutual

/-- Schema well-formedness used for the text-preservation claims: every
hyperlink node carries its content in direct run children (the OOXML content
model of `w:hyperlink`), and a color property carries no visible text. -/
def textSafeE : Elem → Bool
  | .mk t _ _ cs =>
      (!(t == hlTag) || cs.all isRun) &&
      ((!(t == colorTag) || (textOfL cs).isEmpty) && textSafeL cs)

def textSafeL : List Elem → Bool
  | [] => true
  | c :: rest => textSafeE c && textSafeL rest

end

mutual

/-- Schema well-formedness used for the structural-removal claims: a run
node never contains a hyperlink node (the OOXML content model of `w:r`). -/
def runsCleanE : Elem → Bool
  | .mk t _ _ cs => (!(t == runTag) || hlCountL cs == 0) && runsCleanL cs

def runsCleanL : List Elem → Bool
  | [] => true
  | c :: rest => runsCleanE c && runsCleanL rest

end

/-- Whether a child list is empty or starts with a run node. -/
def headIsRun : List Elem → Bool
  | [] => true
  | c :: _ => isRun c

mutual

/-- Iterator-safety condition for the structural-removal claim: every
hyperlink node either has no children or has a run as its first child.
When such a hyperlink is unwrapped, the successor that lxml's iterator
stored before the mutation — the next sibling for a childless hyperlink,
the first (spliced) run otherwise — is still attached to the paragraph, so
the source walk continues past the splice and reaches every later
hyperlink, as `processChildren` does.  A hyperlink whose first child is a
non-run would instead end the source walk early. -/
def runFirstE : Elem → Bool
  | .mk t _ _ cs => (!(t == hlTag) || headIsRun cs) && runFirstL cs

def runFirstL : List Elem → Bool
  | [] => true
  | c :: rest => runFirstE c && runFirstL rest

end

/-- Paragraph element well-formedness for the structural-removal claim: the
element is a `w:p` (so not a hyperlink itself), runs in it contain no
hyperlinks, and every hyperlink in it is childless or run-first, so the
source's mutation-during-iteration walk reaches every hyperlink of the
paragraph. -/
def paraReady (p : Elem) : Bool :=
  (p.tag == "w:p") && runsCleanE p && runFirstE p

/-- Block well-formedness for the structural-removal claim: paragraphs are
well-formed and table cells contain only paragraphs (no nested tables). -/
def blockReady : Block → Bool
  | .para p => paraReady p
  | .table rows =>
      rows.all fun r =>
        r.cells.all fun c =>
          c.blocks.all fun b =>
            match b with
            | .para p => paraReady p
            | .table _ => false

def cellBlockTextSafe : Block → Bool
  | .para p => textSafeE p
  | .table _ => true

/-- Block well-formedness for the text-preservation claim: every paragraph
the transform visits is `textSafeE`; nested tables are untouched by the
transform, so nothing is required of them. -/
def blockTextSafe : Block → Bool
  | .para p => textSafeE p
  | .table rows =>
      rows.all fun r => r.cells.all fun c => c.blocks.all cellBlockTextSafe

def docTextSafe (doc : List Block) : Bool := doc.all blockTextSafe

/-- A PDF page as the PDF transform sees it: a content stream and an
optional `/Annots` annotation list. -/
structure PdfPage where
  content : List Char
  annots : Option (List String)
deriving DecidableEq, Repr

/-- Embeds the per-page body of lines 265-274: `writer.add_page(page)`
copies the page, then `del page_dict['/Annots']` removes the annotation list
entirely when present (an absent list stays absent). -/
def clearPageAnnots (p : PdfPage) : PdfPage := ⟨p.content, none⟩

/-- Embeds `remove_hyperlinks_from_pdf` (lines 261-280): every page of the
reader is copied, in order, into the writer with its annotation list
deleted. -/
def remove_hyperlinks_from_pdf (pages : List PdfPage) : List PdfPage :=
  pages.map clearPageAnnots

/-- A file in the input directory, abstracted for the pipeline claims: its
name, plus flags saying whether parsing the file fails, whether serializing
the output fails, and whether the `shutil.move` into the done folder fails. -/
structure FileSpec where
  name : List Char
  parseFails : Bool
  saveFails : Bool
  moveFails : Bool
deriving DecidableEq, Repr

/-- Embeds Python `str.lower` on the ASCII names the pipeline handles. -/
def lowerName (s : List Char) : List Char := s.map Char.toLower

/-- Helper for `suffixName`: the segment of the name from its last dot on,
if any dot occurs in this portion of the name. -/
def lastDotTail : List Char → Option (List Char)
  | [] => none
  | c :: rest =>
      match lastDotTail rest with
      | some s => some s
      | none => if c = '.' then some (c :: rest) else none

/-- Embeds `pathlib.Path.suffix` on a bare file name: the segment from the
last dot on, except that a dot in first position (a hidden file) or in last
position yields no suffix. -/
def suffixName : List Char → List Char
  | [] => []
  | _ :: rest =>
      match lastDotTail rest with
      | some (c :: tl) => if tl.isEmpty then [] else c :: tl
      | _ => []

/-- Case-sensitive check that a name ends with the given pattern tail, as
fnmatch does for a `glob` pattern starting with a star. -/
def endsList (name pat : List Char) : Bool :=
  name.reverse.take pat.length == pat.reverse

/-- Embeds line 347: `list(input_dir.glob('*.docx')) +
list(input_dir.glob('*.pdf'))`.  The glob patterns are literal apart from
the leading star, so the match is case-sensitive on the extension. -/
def listInput (files : List FileSpec) : List FileSpec :=
  files.filter (fun f => endsList f.name (".docx".toList)) ++
    files.filter (fun f => endsList f.name (".pdf".toList))

inductive TKind : Type where
  | docx
  | pdf
deriving DecidableEq, Repr

/-- Embeds the dispatch of lines 302-318: `file_ext = input_file.suffix.lower()`
is compared to the literal strings `.docx` and `.pdf`; anything else falls
into the skip branch. -/
def dispatchKind (f : FileSpec) : Option TKind :=
  let ext := lowerName (suffixName f.name)
  if ext = ".docx".toList then some .docx
  else if ext = ".pdf".toList then some .pdf
  else none

/-- Whether the transform call inside `process_file` returns True: both
transforms catch every exception raised between parse and serialization and
return False for it (lines 161-229 and 261-286). -/
def transformOk (f : FileSpec) : Bool := !f.parseFails && !f.saveFails

/-- Observable outcome of one `process_file` call: the returned boolean, the
status line printed (skip message at line 317, failure message at line 327),
and whether an output file was written and the original moved to done. -/
structure FileResult where
  retval : Bool
  loggedSkip : Bool
  loggedFail : Bool
  wroteOut : Bool
  movedDone : Bool
deriving DecidableEq, Repr

inductive BatchErr : Type where
  | moveFailed
deriving DecidableEq, Repr

/-- Embeds `process_file` (lines 289-328).  The skip branch (lines 316-318)
returns False, the same value as the failure branch.  The `shutil.move` at
line 323 sits outside every try block, so a move failure escapes
`process_file` as an exception instead of an outcome. -/
def process_file (f : FileSpec) : Except BatchErr FileResult :=
  match dispatchKind f with
  | none => .ok ⟨false, true, false, false, false⟩
  | some _ =>
      if transformOk f then
        if f.moveFails then .error .moveFailed
        else .ok ⟨true, false, false, true, true⟩
      else .ok ⟨false, false, true, false, false⟩

/-- The per-file loop of `main` (lines 356-360): no try block surrounds the
`process_file` call, so an escaping exception aborts the whole batch. -/
def batchGo : List FileSpec → Nat → Except BatchErr Nat
  | [], acc => .ok acc
  | f :: rest, acc =>
      match process_file f with
      | .error e => .error e
      | .ok r => batchGo rest (if r.retval then acc + 1 else acc)

/-- Whether `process_file` reaches the success path for this file. -/
def fileOk (f : FileSpec) : Bool := (dispatchKind f).isSome && transformOk f

/-- Embeds `main` (lines 331-362): list the input files with the two globs,
run `process_file` on each, and report success count over total. -/
def runBatch (files : List FileSpec) : Except BatchErr (Nat × Nat) :=
  (batchGo (listInput files) 0).map fun cnt => (cnt, (listInput files).length)

/-- Schema side condition for the color-forcing claim: the run's properties
container, when present, holds at most one color property (the OOXML content
model allows at most one `w:color` per `w:rPr`). -/
def colorCountOk (r : Elem) : Bool :=
  match r.children.find? isRPr with
  | some p => decide (p.children.countP isColor ≤ 1)
  | none => true

/-- Concrete run without a properties container, carrying the text `click`. -/
def runW1 : Elem := .mk runTag [] "" [.mk tTag [] "click" []]

/-- Concrete run with a properties container holding a blue color and the
text `here`. -/
def runW2 : Elem :=
  .mk runTag [] ""
    [.mk rPrTag [] "" [.mk colorTag [("w:val", "0000FF")] "" []],
     .mk tTag [] " here" []]

/-- Concrete hyperlink wrapping the two runs. -/
def hlW : Elem := .mk hlTag [("r:id", "rId4")] "" [runW1, runW2]

/-- Concrete paragraph: a plain run followed by the hyperlink. -/
def paraW : Elem :=
  .mk "w:p" [] "" [.mk runTag [] "" [.mk tTag [] "see " []], hlW]

/-- Concrete one-paragraph document body. -/
def docW : List Block := [.para paraW]

/-- Concrete paragraph containing two hyperlink nodes. -/
def paraTwoHl : Elem := .mk "w:p" [] "" [hlW, .mk hlTag [] "" [runW1]]

/-- Concrete document with a body paragraph holding two hyperlinks and a
top-level table whose single cell holds a hyperlinked paragraph. -/
def cellDocW : List Block :=
  [.para paraTwoHl, .table [.mk [.mk [.para paraW]]]]

/-- Concrete document whose only hyperlink sits in a paragraph of a nested
table (a table inside a cell of a top-level table). -/
def nestedTableDoc : List Block :=
  [.table [.mk [.mk [.table [.mk [.mk [.para paraW]]]]]]]

/-- Concrete already-stripped document: the output of a first pass. -/
def strippedW : List Block := remove_hyperlinks_from_docx docW

/-- Concrete hyperlink with non-run children: a bookmark marker and a
tracked-change wrapper that carries a run with the text `lost`. -/
def hlMixed : Elem :=
  .mk hlTag [] ""
    [runW1, .mk "w:bookmarkStart" [("w:name", "b1")] "" [],
     .mk "w:ins" [] "" [.mk runTag [] "" [.mk tTag [] "lost" []]]]

/-- Concrete two-page PDF, one page carrying two annotations. -/
def pdfPagesW : List PdfPage :=
  [⟨"page one".toList, some ["uri link", "widget"]⟩, ⟨"page two".toList, none⟩]

/-- Claim C4: for every PDF input, the output of `remove_hyperlinks_from_pdf`
has the same number of pages, in the same order with unchanged content
streams, and every output page has no annotation list at all. -/
theorem pdf_annots_removed (pages : List PdfPage) :
    (remove_hyperlinks_from_pdf pages).length = pages.length ∧
    (remove_hyperlinks_from_pdf pages).map PdfPage.content =
      pages.map PdfPage.content ∧
    ∀ p ∈ remove_hyperlinks_from_pdf pages, p.annots = none := by
  refine ⟨by simp [remove_hyperlinks_from_pdf], ?_, ?_⟩
  · simp [remove_hyperlinks_from_pdf, clearPageAnnots]
  · intro p hp
    simp only [remove_hyperlinks_from_pdf, List.mem_map] at hp
    obtain ⟨q, _, rfl⟩ := hp
    rfl

/-- Witness for claim C4 at a concrete two-page document. -/
theorem pdf_annots_removed_w :
    (remove_hyperlinks_from_pdf pdfPagesW).length = pdfPagesW.length ∧
    (remove_hyperlinks_from_pdf pdfPagesW).map PdfPage.content =
      pdfPagesW.map PdfPage.content ∧
    ∀ p ∈ remove_hyperlinks_from_pdf pdfPagesW, p.annots = none :=
  pdf_annots_removed pdfPagesW

theorem batchGo_ok (l : List FileSpec) (acc : Nat)
    (h : ∀ f ∈ l, fileOk f = true → f.moveFails = false) :
    batchGo l acc = .ok (acc + l.countP fileOk) := by
  induction l generalizing acc with
  | nil => simp [batchGo]
  | cons f rest ih =>
      have hrest : ∀ g ∈ rest, fileOk g = true → g.moveFails = false :=
        fun g hg => h g (List.mem_cons_of_mem f hg)
      rw [batchGo]
      rw [List.countP_cons]
      cases hd : dispatchKind f with
      | none =>
          have hok : fileOk f = false := by simp [fileOk, hd]
          simp only [process_file, hd, hok, ih _ hrest]
          norm_num
      | some k =>
          by_cases htr : transformOk f = true
          · have hok : fileOk f = true := by simp [fileOk, hd, htr]
            have hmv : f.moveFails = false := h f (List.mem_cons_self f rest) hok
            simp only [process_file, hd, htr, hmv, if_true, Bool.false_eq_true,
              if_false, hok, ih _ hrest]
            norm_num
            omega
          · have htr2 : transformOk f = false := by
              cases hb : transformOk f
              · rfl
              · exact absurd hb htr
            have hok : fileOk f = false := by simp [fileOk, htr2]
            simp only [process_file, hd, htr2, Bool.false_eq_true, if_false,
              hok, ih _ hrest]
            norm_num

/-- Claim C5 (amended): parse failures and output-serialization failures are
caught per-file inside the transforms and become a False outcome, so a batch
whose files never fail the done-folder move always runs to completion,
reporting the number of files whose transform succeeded out of the listed
total — regardless of how many parse or save failures occur.  (A move
failure, by contrast, aborts the batch: see the counterexample.) -/
theorem batch_survives_transform_failures (files : List FileSpec)
    (h : ∀ f ∈ listInput files, fileOk f = true → f.moveFails = false) :
    runBatch files =
      .ok ((listInput files).countP fileOk, (listInput files).length) := by
  rw [runBatch, batchGo_ok (listInput files) 0 h]
  simp [Except.map]

/-- Witness for claim C5: a parse-failing file between two good ones does
not stop the batch; the run reports two successes out of three. -/
theorem batch_survives_transform_failures_w :
    runBatch [⟨"a.docx".toList, false, false, false⟩,
              ⟨"bad.docx".toList, true, false, false⟩,
              ⟨"b.pdf".toList, false, false, false⟩] = .ok (2, 3) := by
  have h := batch_survives_transform_failures
    [⟨"a.docx".toList, false, false, false⟩,
     ⟨"bad.docx".toList, true, false, false⟩,
     ⟨"b.pdf".toList, false, false, false⟩] (by decide)
  simpa using h

/-- Counterexample to claim C5 as stated: a file whose move into the done
folder fails makes the whole batch abort with an error instead of a Failed
outcome, because the `shutil.move` call sits outside every try block. -/
theorem batch_aborts_on_move_failure :
    runBatch [⟨"a.docx".toList, false, false, true⟩,
              ⟨"b.pdf".toList, false, false, false⟩] =
      .error BatchErr.moveFailed := by
  rfl

/-- Claim C6 (amended): the dispatcher alone is case-insensitive — it
lowercases the file suffix before comparing — but the batch listing is
case-sensitive: only files whose names literally end in `.docx` or `.pdf`
are globbed, so a file like `A.DOCX` is routed correctly by the dispatcher
yet never listed by the pipeline. -/
theorem dispatch_lowercases_but_glob_is_case_sensitive :
    (∀ (files : List FileSpec) (f : FileSpec), f ∈ files →
        endsList f.name (".docx".toList) = true → f ∈ listInput files) ∧
    (∀ (files : List FileSpec) (f : FileSpec), f ∈ files →
        endsList f.name (".pdf".toList) = true → f ∈ listInput files) ∧
    (∀ f : FileSpec, lowerName (suffixName f.name) = ".docx".toList →
        dispatchKind f = some TKind.docx) ∧
    (∀ f : FileSpec, lowerName (suffixName f.name) = ".pdf".toList →
        dispatchKind f = some TKind.pdf) := by
  refine ⟨?_, ?_, ?_, ?_⟩
  · intro files f hf he
    exact List.mem_append_left _ (List.mem_filter.mpr ⟨hf, he⟩)
  · intro files f hf he
    exact List.mem_append_right _ (List.mem_filter.mpr ⟨hf, he⟩)
  · intro f h
    simp [dispatchKind, h]
  · intro f h
    have hne : (".pdf".toList : List Char) ≠ ".docx".toList := by decide
    simp [dispatchKind, h, hne]

/-- Witness for claim C6: a lowercase-named file is listed and the
dispatcher routes an uppercase suffix to the Word transform. -/
theorem dispatch_lowercases_but_glob_is_case_sensitive_w :
    (⟨"a.docx".toList, false, false, false⟩ : FileSpec) ∈
      listInput [⟨"a.docx".toList, false, false, false⟩] ∧
    dispatchKind ⟨"A.DOCX".toList, false, false, false⟩ = some TKind.docx :=
  ⟨dispatch_lowercases_but_glob_is_case_sensitive.1
      [⟨"a.docx".toList, false, false, false⟩] _ (by decide) (by decide),
   dispatch_lowercases_but_glob_is_case_sensitive.2.2.1
      ⟨"A.DOCX".toList, false, false, false⟩ (by decide)⟩

/-- Counterexample to claim C6 as stated: `A.DOCX` has a `.docx` extension
up to letter case and the dispatcher would route it, but the batch pipeline
never lists it, because `glob('*.docx')` and `glob('*.pdf')` match the
extension case-sensitively. -/
theorem uppercase_extension_never_listed :
    listInput [⟨"A.DOCX".toList, false, false, false⟩] = [] ∧
    dispatchKind ⟨"A.DOCX".toList, false, false, false⟩ = some TKind.docx :=
  ⟨by decide, by decide⟩

/-- Claim C7 (amended): for a dispatched file whose lowercased suffix is
neither `.docx` nor `.pdf`, `process_file` prints the skip message rather
than the failure message and neither writes an output file nor moves the
original — but it returns False, the very value the failure path returns,
so the returned outcome does not distinguish Skipped from Failed. -/
theorem skip_branch_returns_false (f : FileSpec) (h : dispatchKind f = none) :
    process_file f = .ok ⟨false, true, false, false, false⟩ := by
  simp [process_file, h]

/-- Witness for claim C7 at the concrete file `notes.txt`. -/
theorem skip_branch_returns_false_w :
    process_file ⟨"notes.txt".toList, false, false, false⟩ =
      .ok ⟨false, true, false, false, false⟩ :=
  skip_branch_returns_false ⟨"notes.txt".toList, false, false, false⟩ (by decide)

/-- Counterexample to claim C7 as stated: the outcome `process_file` returns
for the unsupported `notes.txt` is the same value it returns for a `.docx`
file whose processing fails, so the Skipped outcome is not distinct from the
Failed outcome in the value the dispatcher reports to the batch. -/
theorem skip_not_distinct_from_failure :
    (process_file ⟨"notes.txt".toList, false, false, false⟩).map
        FileResult.retval = .ok false ∧
    (process_file ⟨"bad.docx".toList, true, false, false⟩).map
        FileResult.retval = .ok false := by
  exact ⟨rfl, rfl⟩

theorem textOfL_append (l1 l2 : List Elem) :
    textOfL (l1 ++ l2) = textOfL l1 ++ textOfL l2 := by
  induction l1 with
  | nil => simp [textOfL]
  | cons c rest ih => simp [textOfL, ih]

theorem textSafeE_parts (t : String) (a : List (String × String)) (tx : String)
    (cs : List Elem) (h : textSafeE (.mk t a tx cs) = true) :
    (t = hlTag → cs.all isRun = true) ∧
    (t = colorTag → textOfL cs = []) ∧ textSafeL cs = true := by
  rw [textSafeE] at h
  simp only [Bool.and_eq_true, Bool.or_eq_true, Bool.not_eq_eq_eq_not,
    Bool.not_true, beq_eq_false_iff_ne, ne_eq, List.isEmpty_iff] at h
  refine ⟨fun ht => ?_, fun ht => ?_, h.2.2⟩
  · rcases h.1 with hne | hall
    · exact absurd ht hne
    · exact hall
  · rcases h.2.1 with hne | hemp
    · exact absurd ht hne
    · exact hemp

theorem textSafeL_parts (c : Elem) (rest : List Elem)
    (h : textSafeL (c :: rest) = true) :
    textSafeE c = true ∧ textSafeL rest = true := by
  rw [textSafeL] at h
  simpa [Bool.and_eq_true] using h

theorem textOfL_removeFirstColor (l : List Elem) (h : textSafeL l = true) :
    textOfL (removeFirstColor l) = textOfL l := by
  induction l with
  | nil => rfl
  | cons c rest ih =>
      obtain ⟨hc, hrest⟩ := textSafeL_parts c rest h
      rw [removeFirstColor]
      by_cases ht : c.tag = colorTag
      · cases c with
        | mk t a tx cs =>
            have hparts := textSafeE_parts t a tx cs hc
            have htx : textOfL cs = [] := hparts.2.1 ht
            simp only [Elem.tag] at ht
            simp [ht, Elem.tag, textOfL, textOfE, htx,
              if_neg (by decide : ¬colorTag = tTag)]
      · simp [ht, textOfL, ih hrest]

theorem textOfE_blackColor : textOfE blackColor = [] := rfl

theorem textOfE_updateRPr (p : Elem) (h : textSafeE p = true) :
    textOfE (updateRPr p) = textOfE p := by
  cases p with
  | mk t a tx cs =>
      have hparts := textSafeE_parts t a tx cs h
      simp [updateRPr, textOfE, Elem.tag, Elem.attrs, Elem.text, Elem.children,
        textOfL_append, textOfL, blackColor,
        if_neg (by decide : ¬colorTag = tTag),
        textOfL_removeFirstColor cs hparts.2.2]

theorem textOfL_replaceFirstRPr (l : List Elem) (h : textSafeL l = true) :
    textOfL (replaceFirstRPr l) = textOfL l := by
  induction l with
  | nil => rfl
  | cons c rest ih =>
      obtain ⟨hc, hrest⟩ := textSafeL_parts c rest h
      rw [replaceFirstRPr]
      by_cases ht : c.tag = rPrTag
      · simp [ht, textOfL, textOfE_updateRPr c hc]
      · simp [ht, textOfL, ih hrest]

theorem textOfE_forceBlack (r : Elem) (h : textSafeE r = true) :
    textOfE (forceBlack r) = textOfE r := by
  cases r with
  | mk t a tx cs =>
      have hparts := textSafeE_parts t a tx cs h
      rw [forceBlack]
      simp only [Elem.children, Elem.tag, Elem.attrs, Elem.text]
      by_cases hf : (List.find? isRPr cs).isSome = true
      · rw [if_pos hf]
        simp [textOfE, textOfL_replaceFirstRPr cs hparts.2.2]
      · rw [if_neg hf]
        simp [textOfE, textOfL, blackColor,
          if_neg (by decide : ¬rPrTag = tTag),
          if_neg (by decide : ¬colorTag = tTag)]

theorem textOfL_map_forceBlack (l : List Elem) (h : textSafeL l = true) :
    textOfL (l.map forceBlack) = textOfL l := by
  induction l with
  | nil => rfl
  | cons c rest ih =>
      obtain ⟨hc, hrest⟩ := textSafeL_parts c rest h
      simp [textOfL, textOfE_forceBlack c hc, ih hrest]

theorem textSafeL_filter (l : List Elem) (p : Elem → Bool)
    (h : textSafeL l = true) : textSafeL (l.filter p) = true := by
  induction l with
  | nil => rfl
  | cons c rest ih =>
      obtain ⟨hc, hrest⟩ := textSafeL_parts c rest h
      by_cases hp : p c
      · simp [List.filter, hp, textSafeL, hc, ih hrest]
      · simp only [List.filter, hp]
        exact ih hrest

mutual

theorem textOf_processElem : ∀ (e : Elem), textSafeE e = true →
    textOfE (processElem e) = textOfE e
  | .mk t a tx cs, h => by
      have hcs : textSafeL cs = true := (textSafeE_parts t a tx cs h).2.2
      simp [processElem, textOfE, textOf_processChildren cs hcs]

theorem textOf_processChildren : ∀ (l : List Elem), textSafeL l = true →
    textOfL (processChildren l) = textOfL l
  | [], _ => rfl
  | c :: rest, h => by
      obtain ⟨hc, hrest⟩ := textSafeL_parts c rest h
      rw [processChildren]
      by_cases ht : c.tag = hlTag
      · cases c with
        | mk t a tx cs =>
            have hparts := textSafeE_parts t a tx cs hc
            simp only [Elem.tag] at ht
            have hall : cs.all isRun = true := hparts.1 ht
            have hfilter : cs.filter isRun = cs :=
              List.filter_eq_self.mpr fun a ha => List.all_eq_true.mp hall a ha
            simp only [Elem.tag, ht, if_true, Elem.children, hfilter,
              textOfL_append, textOfL]
            rw [textOfL_map_forceBlack cs hparts.2.2,
              textOf_processChildren rest hrest]
            simp [textOfE, ht, if_neg (by decide : ¬hlTag = tTag)]
      · simp [ht, textOfL, textOf_processElem c hc,
          textOf_processChildren rest hrest]

end

theorem processChildren_append (l1 l2 : List Elem) :
    processChildren (l1 ++ l2) = processChildren l1 ++ processChildren l2 := by
  induction l1 with
  | nil => simp [processChildren]
  | cons c rest ih =>
      by_cases ht : c.tag = hlTag
      · simp [processChildren, ht, ih]
      · simp [processChildren, ht, ih]

theorem textOf_processCellBlock (b : Block) (h : cellBlockTextSafe b = true) :
    textOfB (processCellBlock b) = textOfB b := by
  cases b with
  | para p =>
      rw [cellBlockTextSafe] at h
      simp [processCellBlock, textOfB, textOf_processElem p h]
  | table rows => rfl

theorem textOfBs_map_cellBlock (bs : List Block)
    (h : bs.all cellBlockTextSafe = true) :
    textOfBs (bs.map processCellBlock) = textOfBs bs := by
  induction bs with
  | nil => rfl
  | cons b rest ih =>
      simp only [List.all_cons, Bool.and_eq_true] at h
      simp [textOfBs, textOf_processCellBlock b h.1, ih h.2]

theorem textOf_processTableCell (c : TableCell)
    (h : c.blocks.all cellBlockTextSafe = true) :
    textOfCell (processTableCell c) = textOfCell c := by
  cases c with
  | mk bs =>
      rw [TableCell.blocks] at h
      simp [processTableCell, textOfCell, textOfBs_map_cellBlock bs h]

theorem textOfCells_map (cells : List TableCell)
    (h : cells.all (fun c => c.blocks.all cellBlockTextSafe) = true) :
    textOfCells (cells.map processTableCell) = textOfCells cells := by
  induction cells with
  | nil => rfl
  | cons c rest ih =>
      simp only [List.all_cons, Bool.and_eq_true] at h
      simp [textOfCells, textOf_processTableCell c h.1, ih h.2]

theorem textOf_processTableRow (r : TableRow)
    (h : r.cells.all (fun c => c.blocks.all cellBlockTextSafe) = true) :
    textOfRow (processTableRow r) = textOfRow r := by
  cases r with
  | mk cells =>
      rw [TableRow.cells] at h
      simp [processTableRow, textOfRow, textOfCells_map cells h]

theorem textOfRows_map (rows : List TableRow)
    (h : rows.all (fun r => r.cells.all fun c =>
        c.blocks.all cellBlockTextSafe) = true) :
    textOfRows (rows.map processTableRow) = textOfRows rows := by
  induction rows with
  | nil => rfl
  | cons r rest ih =>
      simp only [List.all_cons, Bool.and_eq_true] at h
      simp [textOfRows, textOf_processTableRow r h.1, ih h.2]

theorem textOf_processTopBlock (b : Block) (h : blockTextSafe b = true) :
    textOfB (processTopBlock b) = textOfB b := by
  cases b with
  | para p =>
      rw [blockTextSafe] at h
      simp [processTopBlock, textOfB, textOf_processElem p h]
  | table rows =>
      rw [blockTextSafe] at h
      simp [processTopBlock, textOfB, textOfRows_map rows h]

/-- Claim C1: a hyperlink node is replaced, at its original position in the
parent's child sequence, by its direct run children in their original
relative order (color-forced), and the hyperlink node itself disappears; on
any document whose hyperlink nodes carry their content in run children (the
OOXML content model), `remove_hyperlinks_from_docx` leaves the visible text
— the concatenated run text in order — unchanged. -/
theorem hyperlink_splice_preserves_text :
    (∀ (pre : List Elem) (c : Elem) (post : List Elem), c.tag = hlTag →
        processChildren (pre ++ c :: post) =
          processChildren pre ++ (c.children.filter isRun).map forceBlack ++
            processChildren post) ∧
    (∀ doc : List Block, docTextSafe doc = true →
        textOfDoc (remove_hyperlinks_from_docx doc) = textOfDoc doc) := by
  constructor
  · intro pre c post hc
    rw [processChildren_append, processChildren, if_pos hc, List.append_assoc]
  · intro doc h
    rw [docTextSafe] at h
    rw [textOfDoc, remove_hyperlinks_from_docx]
    induction doc with
    | nil => rfl
    | cons b rest ih =>
        simp only [List.all_cons, Bool.and_eq_true] at h
        simp only [List.map_cons, textOfBs, textOf_processTopBlock b h.1,
          ih h.2]
        rfl

theorem hlCountL_zero_parts (c : Elem) (rest : List Elem)
    (h : hlCountL (c :: rest) = 0) :
    hlCountE c = 0 ∧ hlCountL rest = 0 := by
  rw [hlCountL] at h
  omega

theorem hlCountE_zero_parts (t : String) (a : List (String × String))
    (tx : String) (cs : List Elem) (h : hlCountE (.mk t a tx cs) = 0) :
    ¬t = hlTag ∧ hlCountL cs = 0 := by
  rw [hlCountE] at h
  by_cases ht : t = hlTag
  · rw [if_pos ht] at h
    omega
  · rw [if_neg ht] at h
    exact ⟨ht, by omega⟩

mutual

theorem processElem_id : ∀ (e : Elem), hlCountE e = 0 → processElem e = e
  | .mk t a tx cs, h => by
      have hcs : hlCountL cs = 0 := (hlCountE_zero_parts t a tx cs h).2
      rw [processElem, processChildren_id cs hcs]

theorem processChildren_id : ∀ (l : List Elem), hlCountL l = 0 →
    processChildren l = l
  | [], _ => rfl
  | c :: rest, h => by
      obtain ⟨hc, hrest⟩ := hlCountL_zero_parts c rest h
      have ht : ¬c.tag = hlTag := by
        cases c with
        | mk t a tx cs =>
            simpa [Elem.tag] using (hlCountE_zero_parts t a tx cs hc).1
      rw [processChildren, if_neg ht, processElem_id c hc,
        processChildren_id rest hrest]

end

theorem processCellBlock_id (b : Block) (h : hlCountB b = 0) :
    processCellBlock b = b := by
  cases b with
  | para p =>
      rw [hlCountB] at h
      rw [processCellBlock, processElem_id p h]
  | table rows => rfl

theorem map_cellBlock_id (bs : List Block) (h : hlCountBs bs = 0) :
    bs.map processCellBlock = bs := by
  induction bs with
  | nil => rfl
  | cons b rest ih =>
      rw [hlCountBs] at h
      rw [List.map_cons, processCellBlock_id b (by omega), ih (by omega)]

theorem processTableCell_id (c : TableCell) (h : hlCountCell c = 0) :
    processTableCell c = c := by
  cases c with
  | mk bs =>
      rw [hlCountCell] at h
      rw [processTableCell, map_cellBlock_id bs h]

theorem map_tableCell_id (cells : List TableCell) (h : hlCountCells cells = 0) :
    cells.map processTableCell = cells := by
  induction cells with
  | nil => rfl
  | cons c rest ih =>
      rw [hlCountCells] at h
      rw [List.map_cons, processTableCell_id c (by omega), ih (by omega)]

theorem processTableRow_id (r : TableRow) (h : hlCountRow r = 0) :
    processTableRow r = r := by
  cases r with
  | mk cells =>
      rw [hlCountRow] at h
      rw [processTableRow, map_tableCell_id cells h]

theorem map_tableRow_id (rows : List TableRow) (h : hlCountRows rows = 0) :
    rows.map processTableRow = rows := by
  induction rows with
  | nil => rfl
  | cons r rest ih =>
      rw [hlCountRows] at h
      rw [List.map_cons, processTableRow_id r (by omega), ih (by omega)]

theorem processTopBlock_id (b : Block) (h : hlCountB b = 0) :
    processTopBlock b = b := by
  cases b with
  | para p =>
      rw [hlCountB] at h
      rw [processTopBlock, processElem_id p h]
  | table rows =>
      rw [hlCountB] at h
      rw [processTopBlock, map_tableRow_id rows h]

/-- Claim C8: on a document tree that contains no hyperlink nodes — in
particular a tree already stripped by a first pass —
`remove_hyperlinks_from_docx` is the identity: the second pass changes
nothing. -/
theorem stripped_tree_fixed (doc : List Block) (h : hlCountDoc doc = 0) :
    remove_hyperlinks_from_docx doc = doc := by
  rw [hlCountDoc] at h
  rw [remove_hyperlinks_from_docx]
  induction doc with
  | nil => rfl
  | cons b rest ih =>
      rw [hlCountBs] at h
      rw [List.map_cons, processTopBlock_id b (by omega), ih (by omega)]

theorem hlCountL_append (l1 l2 : List Elem) :
    hlCountL (l1 ++ l2) = hlCountL l1 + hlCountL l2 := by
  induction l1 with
  | nil => simp [hlCountL]
  | cons c rest ih => simp [hlCountL, ih]; omega

theorem hlCountL_removeFirstColor_zero (l : List Elem) (h : hlCountL l = 0) :
    hlCountL (removeFirstColor l) = 0 := by
  induction l with
  | nil => rfl
  | cons c rest ih =>
      obtain ⟨hc, hrest⟩ := hlCountL_zero_parts c rest h
      rw [removeFirstColor]
      by_cases ht : c.tag = colorTag
      · rw [if_pos ht]
        exact hrest
      · rw [if_neg ht, hlCountL, ih hrest, hc]

theorem hlCountE_updateRPr_zero (p : Elem) (h : hlCountE p = 0) :
    hlCountE (updateRPr p) = 0 := by
  cases p with
  | mk t a tx cs =>
      obtain ⟨ht, hcs⟩ := hlCountE_zero_parts t a tx cs h
      rw [updateRPr]
      simp only [Elem.tag, Elem.attrs, Elem.text, Elem.children]
      rw [hlCountE, if_neg ht, hlCountL_append,
        hlCountL_removeFirstColor_zero cs hcs]
      rfl

theorem hlCountL_replaceFirstRPr_zero (l : List Elem) (h : hlCountL l = 0) :
    hlCountL (replaceFirstRPr l) = 0 := by
  induction l with
  | nil => rfl
  | cons c rest ih =>
      obtain ⟨hc, hrest⟩ := hlCountL_zero_parts c rest h
      rw [replaceFirstRPr]
      by_cases ht : c.tag = rPrTag
      · rw [if_pos ht, hlCountL, hlCountE_updateRPr_zero c hc, hrest]
      · rw [if_neg ht, hlCountL, ih hrest, hc]

theorem hlCountE_forceBlack_zero (r : Elem) (hr : r.tag = runTag)
    (h : hlCountL r.children = 0) : hlCountE (forceBlack r) = 0 := by
  have hrt : ¬r.tag = hlTag := by
    rw [hr]
    decide
  rw [forceBlack]
  by_cases hf : (r.children.find? isRPr).isSome = true
  · rw [if_pos hf, hlCountE]
    simp only [Elem.tag] at hrt ⊢
    rw [if_neg hrt, hlCountL_replaceFirstRPr_zero r.children h]
  · rw [if_neg hf, hlCountE]
    simp only [Elem.tag] at hrt ⊢
    rw [if_neg hrt, hlCountL, h]
    rfl

theorem runsCleanL_parts (c : Elem) (rest : List Elem)
    (h : runsCleanL (c :: rest) = true) :
    runsCleanE c = true ∧ runsCleanL rest = true := by
  rw [runsCleanL] at h
  simpa [Bool.and_eq_true] using h

theorem runsCleanE_parts (t : String) (a : List (String × String))
    (tx : String) (cs : List Elem) (h : runsCleanE (.mk t a tx cs) = true) :
    (t = runTag → hlCountL cs = 0) ∧ runsCleanL cs = true := by
  rw [runsCleanE] at h
  simp only [Bool.and_eq_true, Bool.or_eq_true, Bool.not_eq_eq_eq_not,
    Bool.not_true, beq_eq_false_iff_ne, ne_eq, beq_iff_eq] at h
  refine ⟨fun ht => ?_, h.2⟩
  rcases h.1 with hne | hz
  · exact absurd ht hne
  · exact hz

theorem runsCleanL_mem (l : List Elem) (h : runsCleanL l = true) :
    ∀ r ∈ l, runsCleanE r = true := by
  induction l with
  | nil => intro r hr; cases hr
  | cons c rest ih =>
      obtain ⟨hc, hrest⟩ := runsCleanL_parts c rest h
      intro r hr
      rcases List.mem_cons.mp hr with rfl | hr
      · exact hc
      · exact ih hrest r hr

theorem splice_hl_zero (l : List Elem)
    (h : ∀ r ∈ l, runsCleanE r = true) :
    hlCountL ((l.filter isRun).map forceBlack) = 0 := by
  induction l with
  | nil => rfl
  | cons c rest ih =>
      have hrest : ∀ r ∈ rest, runsCleanE r = true :=
        fun r hr => h r (List.mem_cons_of_mem c hr)
      by_cases hc : isRun c = true
      · have hct : c.tag = runTag := by
          rw [isRun] at hc
          exact beq_iff_eq.mp hc
        have hcz : hlCountL c.children = 0 := by
          cases c with
          | mk t a tx cs =>
              have := (runsCleanE_parts t a tx cs
                (h _ (List.mem_cons_self _ _))).1
              simp only [Elem.tag] at hct
              simpa [Elem.children] using this hct
        simp only [List.filter_cons, hc, if_true, List.map_cons, hlCountL]
        rw [hlCountE_forceBlack_zero c hct hcz, ih hrest]
      · simp only [List.filter_cons, hc, Bool.false_eq_true, if_false]
        exact ih hrest

theorem hl_processChildren_zero : ∀ (l : List Elem), runsCleanL l = true →
    hlCountL (processChildren l) = 0
  | [], _ => rfl
  | .mk t a tx cs :: rest, h => by
      obtain ⟨hc, hrest⟩ := runsCleanL_parts _ rest h
      have hcs : runsCleanL cs = true := (runsCleanE_parts t a tx cs hc).2
      by_cases ht : (Elem.mk t a tx cs).tag = hlTag
      · rw [processChildren, if_pos ht, hlCountL_append]
        simp only [Elem.children]
        rw [splice_hl_zero _ (runsCleanL_mem cs hcs),
          hl_processChildren_zero rest hrest]
      · rw [processChildren, if_neg ht, hlCountL, processElem, hlCountE]
        simp only [Elem.tag] at ht
        rw [if_neg ht, hl_processChildren_zero cs hcs,
          hl_processChildren_zero rest hrest]

theorem para_hl_zero (p : Elem) (h : paraReady p = true) :
    hlCountE (processElem p) = 0 := by
  cases p with
  | mk t a tx cs =>
      rw [paraReady] at h
      simp only [Bool.and_eq_true, beq_iff_eq, Elem.tag] at h
      have hcs : runsCleanL cs = true := (runsCleanE_parts t a tx cs h.1.2).2
      rw [processElem, hlCountE, if_neg (by rw [h.1.1]; decide),
        hl_processChildren_zero cs hcs]

theorem cell_hl_zero (c : TableCell)
    (h : (c.blocks.all fun b => match b with
        | .para p => paraReady p
        | .table _ => false) = true) :
    hlCountCell (processTableCell c) = 0 := by
  cases c with
  | mk bs =>
      rw [TableCell.blocks] at h
      rw [processTableCell, hlCountCell]
      induction bs with
      | nil => rfl
      | cons b rest ih =>
          simp only [List.all_cons, Bool.and_eq_true] at h
          rw [List.map_cons, hlCountBs, ih h.2]
          cases b with
          | para p =>
              rw [processCellBlock, hlCountB, para_hl_zero p h.1]
          | table rows => cases h.1

theorem row_hl_zero (r : TableRow)
    (h : (r.cells.all fun c => c.blocks.all fun b => match b with
        | .para p => paraReady p
        | .table _ => false) = true) :
    hlCountRow (processTableRow r) = 0 := by
  cases r with
  | mk cells =>
      rw [TableRow.cells] at h
      rw [processTableRow, hlCountRow]
      induction cells with
      | nil => rfl
      | cons c rest ih =>
          simp only [List.all_cons, Bool.and_eq_true] at h
          rw [List.map_cons, hlCountCells, ih h.2, cell_hl_zero c h.1]

theorem block_hl_zero (b : Block) (h : blockReady b = true) :
    hlCountB (processTopBlock b) = 0 := by
  cases b with
  | para p =>
      rw [blockReady] at h
      rw [processTopBlock, hlCountB, para_hl_zero p h]
  | table rows =>
      rw [blockReady] at h
      rw [processTopBlock, hlCountB]
      induction rows with
      | nil => rfl
      | cons r rest ih =>
          simp only [List.all_cons, Bool.and_eq_true] at h
          rw [List.map_cons, hlCountRows, ih h.2, row_hl_zero r h.1]

/-- Claim C2 (amended): for every document whose table cells contain only
paragraphs (no nested tables) and whose paragraphs are schema-valid `w:p`
elements in which runs contain no hyperlinks and every hyperlink node is
childless or has a run as its first child — the condition under which the
source's mutation-during-iteration walk stays attached and reaches every
hyperlink — the output of `remove_hyperlinks_from_docx` contains zero
hyperlink nodes, including when one paragraph holds several hyperlink
nodes.  Hyperlinks inside nested tables are not removed, because the walk
visits `doc.tables`, their rows and cells, and only the cells' direct
paragraphs: see the counterexample. -/
theorem visited_paragraphs_fully_stripped (doc : List Block)
    (h : doc.all blockReady = true) :
    hlCountDoc (remove_hyperlinks_from_docx doc) = 0 := by
  rw [hlCountDoc, remove_hyperlinks_from_docx]
  induction doc with
  | nil => rfl
  | cons b rest ih =>
      simp only [List.all_cons, Bool.and_eq_true] at h
      rw [List.map_cons, hlCountBs, ih h.2, block_hl_zero b h.1]

/-- Witness for claim C1 at a concrete one-paragraph document whose
hyperlink wraps two runs. -/
theorem hyperlink_splice_preserves_text_w :
    processChildren ([.mk runTag [] "" [.mk tTag [] "see " []]] ++
        hlW :: []) =
      processChildren [.mk runTag [] "" [.mk tTag [] "see " []]] ++
        (hlW.children.filter isRun).map forceBlack ++ processChildren [] ∧
    textOfDoc (remove_hyperlinks_from_docx docW) = textOfDoc docW :=
  ⟨hyperlink_splice_preserves_text.1
      [.mk runTag [] "" [.mk tTag [] "see " []]] hlW [] (by decide),
   hyperlink_splice_preserves_text.2 docW (by decide)⟩

/-- Witness for claim C2: a document with a two-hyperlink body paragraph and
a hyperlinked paragraph in a top-level table cell comes out with zero
hyperlink nodes. -/
theorem visited_paragraphs_fully_stripped_w :
    hlCountDoc (remove_hyperlinks_from_docx cellDocW) = 0 :=
  visited_paragraphs_fully_stripped cellDocW (by decide)

/-- Counterexample to claim C2 as stated: in a document whose hyperlink sits
in a paragraph of a nested table, the output of
`remove_hyperlinks_from_docx` still contains a hyperlink node, because the
walk stops at the first table level. -/
theorem nested_table_hyperlink_survives :
    hlCountDoc (remove_hyperlinks_from_docx nestedTableDoc) ≠ 0 := by
  decide

/-- Witness for claim C8: processing the already-stripped form of the
concrete document a second time changes nothing. -/
theorem stripped_tree_fixed_w :
    remove_hyperlinks_from_docx strippedW = strippedW :=
  stripped_tree_fixed strippedW (by decide)

theorem updateRPr_tag (p : Elem) : (updateRPr p).tag = p.tag := rfl

theorem children_mk (t : String) (a : List (String × String)) (tx : String)
    (cs : List Elem) : (Elem.mk t a tx cs).children = cs := rfl

theorem updateRPr_children (p : Elem) :
    (updateRPr p).children = removeFirstColor p.children ++ [blackColor] := by
  cases p with
  | mk t a tx cs => rfl

theorem find?_replaceFirstRPr (l : List Elem) (p : Elem)
    (h : l.find? isRPr = some p) :
    (replaceFirstRPr l).find? isRPr = some (updateRPr p) := by
  induction l with
  | nil => cases h
  | cons c rest ih =>
      rw [replaceFirstRPr]
      by_cases hc : c.tag = rPrTag
      · have hrc : isRPr c = true := by
          rw [isRPr]
          exact beq_iff_eq.mpr hc
        rw [List.find?_cons_of_pos _ hrc] at h
        have hcp : c = p := by injection h
        subst hcp
        rw [if_pos hc]
        have hrq : isRPr (updateRPr c) = true := by
          rw [isRPr, updateRPr_tag]
          exact beq_iff_eq.mpr hc
        rw [List.find?_cons_of_pos _ hrq]
      · have hrc : ¬isRPr c = true := by
          rw [isRPr]
          simp [hc]
        rw [List.find?_cons_of_neg _ hrc] at h
        rw [if_neg hc, List.find?_cons_of_neg _ hrc]
        exact ih h

theorem filter_isColor_removeFirstColor (l : List Elem)
    (h : l.countP isColor ≤ 1) :
    (removeFirstColor l).filter isColor = [] := by
  induction l with
  | nil => rfl
  | cons c rest ih =>
      rw [removeFirstColor]
      by_cases hc : c.tag = colorTag
      · rw [if_pos hc]
        have hic : isColor c = true := by
          rw [isColor]
          exact beq_iff_eq.mpr hc
        rw [List.countP_cons, if_pos hic] at h
        have hz : rest.countP isColor = 0 := by omega
        exact List.filter_eq_nil_iff.mpr (List.countP_eq_zero.mp hz)
      · have hic : ¬isColor c = true := by
          rw [isColor]
          simp [hc]
        rw [if_neg hc, List.filter_cons]
        simp only [hic, Bool.false_eq_true, if_false]
        apply ih
        rw [List.countP_cons] at h
        simp only [hic, Bool.false_eq_true, if_false] at h
        omega

theorem isColor_blackColor : isColor blackColor = true := rfl

/-- Claim C3: every run that is a direct child of a processed hyperlink node
appears in the transform's output color-forced: it has a run-properties
container (found first in the child list, and created as the first child
when it was absent), any pre-existing color property is gone, and the
appended last property is the literal black color — whatever the prior
color was, including none. -/
theorem forced_run_color_black (c r : Elem) (hc : c.tag = hlTag)
    (hr : r ∈ c.children) (hrun : isRun r = true)
    (hwf : colorCountOk r = true) :
    forceBlack r ∈ processChildren [c] ∧
    ∃ p, (forceBlack r).children.find? isRPr = some p ∧
      p.children.filter isColor = [blackColor] ∧
      p.children.getLast? = some blackColor ∧
      (r.children.find? isRPr = none →
        (forceBlack r).children = p :: r.children) := by
  refine ⟨?_, ?_⟩
  · rw [processChildren, if_pos hc]
    exact List.mem_append_left _
      (List.mem_map_of_mem forceBlack (List.mem_filter.mpr ⟨hr, hrun⟩))
  · cases hf : r.children.find? isRPr with
    | some p0 =>
        have hcnt : p0.children.countP isColor ≤ 1 := by
          rw [colorCountOk, hf] at hwf
          exact of_decide_eq_true hwf
        refine ⟨updateRPr p0, ?_, ?_, ?_, ?_⟩
        · rw [forceBlack, if_pos (by rw [hf]; rfl), children_mk]
          exact find?_replaceFirstRPr r.children p0 hf
        · rw [updateRPr_children, List.filter_append,
            filter_isColor_removeFirstColor _ hcnt]
          simp [isColor_blackColor]
        · rw [updateRPr_children]
          exact List.getLast?_concat _
        · intro hn
          simp [hf] at hn
    | none =>
        refine ⟨.mk rPrTag [] "" [blackColor], ?_, ?_, ?_, ?_⟩
        · rw [forceBlack, if_neg (by rw [hf]; simp), children_mk]
          rw [List.find?_cons_of_pos _ (by rw [isRPr]; rfl)]
        · rfl
        · rfl
        · intro _
          rw [forceBlack, if_neg (by rw [hf]; simp), children_mk]

/-- Witness for claim C3 at the concrete hyperlink `hlW` and its second run,
which carried a blue color before the transform. -/
theorem forced_run_color_black_w :
    forceBlack runW2 ∈ processChildren [hlW] ∧
    ∃ p, (forceBlack runW2).children.find? isRPr = some p ∧
      p.children.filter isColor = [blackColor] ∧
      p.children.getLast? = some blackColor ∧
      (runW2.children.find? isRPr = none →
        (forceBlack runW2).children = p :: runW2.children) :=
  forced_run_color_black hlW runW2 rfl
    (show runW2 ∈ [runW1, runW2] from List.Mem.tail _ (List.Mem.head _))
    rfl rfl

theorem filter_nonColor_removeFirstColor (l : List Elem) :
    (removeFirstColor l).filter (fun e => !isColor e) =
      l.filter (fun e => !isColor e) := by
  induction l with
  | nil => rfl
  | cons c rest ih =>
      rw [removeFirstColor]
      by_cases hc : c.tag = colorTag
      · rw [if_pos hc, List.filter_cons]
        have hic : (!isColor c) = false := by
          rw [isColor]
          simp [hc]
        simp [hic]
      · rw [if_neg hc, List.filter_cons, List.filter_cons]
        have hic : (!isColor c) = true := by
          rw [isColor]
          simp [hc]
        simp only [hic, if_true, ih]

/-- Claim C9: for a run child of a processed hyperlink that already had a
run-properties container, the output run keeps every formatting property
other than the color — the non-color children of the container are exactly
the original ones, in their original order. -/
theorem forced_run_keeps_other_props (c r p0 : Elem) (hc : c.tag = hlTag)
    (hr : r ∈ c.children) (hrun : isRun r = true)
    (hp : r.children.find? isRPr = some p0) :
    forceBlack r ∈ processChildren [c] ∧
    ∃ q, (forceBlack r).children.find? isRPr = some q ∧
      q.children.filter (fun e => !isColor e) =
        p0.children.filter (fun e => !isColor e) := by
  refine ⟨?_, updateRPr p0, ?_, ?_⟩
  · rw [processChildren, if_pos hc]
    exact List.mem_append_left _
      (List.mem_map_of_mem forceBlack (List.mem_filter.mpr ⟨hr, hrun⟩))
  · rw [forceBlack, if_pos (by rw [hp]; rfl), children_mk]
    exact find?_replaceFirstRPr r.children p0 hp
  · rw [updateRPr_children, List.filter_append,
      filter_nonColor_removeFirstColor]
    simp [isColor_blackColor]

/-- Witness for claim C9: the second run of the concrete hyperlink keeps its
non-color properties. -/
theorem forced_run_keeps_other_props_w :
    forceBlack runW2 ∈ processChildren [hlW] ∧
    ∃ q, (forceBlack runW2).children.find? isRPr = some q ∧
      q.children.filter (fun e => !isColor e) =
        (Elem.mk rPrTag [] ""
            [.mk colorTag [("w:val", "0000FF")] "" []]).children.filter
          (fun e => !isColor e) :=
  forced_run_keeps_other_props hlW runW2
    (.mk rPrTag [] "" [.mk colorTag [("w:val", "0000FF")] "" []]) rfl
    (show runW2 ∈ [runW1, runW2] from List.Mem.tail _ (List.Mem.head _))
    rfl rfl

theorem forceBlack_tag (r : Elem) : (forceBlack r).tag = r.tag := by
  rw [forceBlack]
  split <;> rfl

/-- Claim C10: a processed hyperlink node is replaced by exactly its direct
run children — every spliced element is a run — and the text of the spliced
segment is the text of those run children alone, so text carried by non-run
children of the hyperlink is absent from the output tree. -/
theorem nonrun_children_dropped (c : Elem) (rest : List Elem)
    (hc : c.tag = hlTag) (hsafe : textSafeL c.children = true) :
    processChildren (c :: rest) =
      (c.children.filter isRun).map forceBlack ++ processChildren rest ∧
    (∀ e ∈ (c.children.filter isRun).map forceBlack, e.tag = runTag) ∧
    textOfL ((c.children.filter isRun).map forceBlack) =
      textOfL (c.children.filter isRun) := by
  refine ⟨by rw [processChildren, if_pos hc], ?_, ?_⟩
  · intro e he
    obtain ⟨r, hrf, rfl⟩ := List.mem_map.mp he
    rw [forceBlack_tag]
    have := (List.mem_filter.mp hrf).2
    rw [isRun] at this
    exact beq_iff_eq.mp this
  · exact textOfL_map_forceBlack _ (textSafeL_filter c.children isRun hsafe)

/-- Witness for claim C10 at a concrete hyperlink whose children are a run,
a bookmark marker, and a tracked-change wrapper carrying the text `lost`:
the splice keeps only the run. -/
theorem nonrun_children_dropped_w :
    processChildren (hlMixed :: []) =
      (hlMixed.children.filter isRun).map forceBlack ++ processChildren [] ∧
    (∀ e ∈ (hlMixed.children.filter isRun).map forceBlack,
        e.tag = runTag) ∧
    textOfL ((hlMixed.children.filter isRun).map forceBlack) =
      textOfL (hlMixed.children.filter isRun) :=
  nonrun_children_dropped hlMixed [] rfl (by decide)
